import Mathlib

/-!
Verification of the similarity-search core of the crypto pattern dashboard
(`find_similar_patterns` in `maincode.py`).

The embedding models:
  * a data frame row (`Bar`) as a timestamp (epoch milliseconds, `ℤ`) and a
    closing price (`ℚ`, the exact-arithmetic idealisation of the float);
  * `np.corrcoef(x, y)[0, 1]` as an exact representation of the Pearson
    correlation value: the centered cross sum and the two centered sums of
    squares.  The real value denoted is `cov / sqrt (vx * vy)`; the entry is
    `none` (NaN) exactly when one of the variances is zero, which is when
    numpy produces NaN from the 0/0 division;
  * float comparison of correlation values as the exact comparison of the
    denoted real numbers (`ScoreVal.lt`), with NaN incomparable (`keyLt`,
    `keyGe` return `false` on `none`, matching IEEE comparisons);
  * `list.sort(key=lambda x: x[0], reverse=True)` as a stable
    descending-by-key sort (`sortDesc`);
  * `ts.strftime("%Y-%m-%d")` used as a dedup key as the floor of the epoch
    millisecond timestamp by the number of milliseconds in a day: two
    timestamps produce the same date string iff they have the same floor-day;
  * the day-dedup selection loop as `selectLoop`.
-/

/-- One row of the OHLCV data frame, restricted to the two columns the search
reads: the timestamp (epoch milliseconds) and the closing price. -/
structure Bar where
  timestamp : ℤ
  close : ℚ
deriving DecidableEq

instance : Inhabited Bar := ⟨⟨0, 0⟩⟩

/-- Exact representation of the float `np.corrcoef(x, y)[0, 1]`:
`cov` is the centered cross sum, `vx`, `vy` the centered sums of squares.
The represented real number is `cov / sqrt (vx * vy)`. -/
structure ScoreVal where
  cov : ℚ
  vx : ℚ
  vy : ℚ
deriving DecidableEq

/-- One entry of the `similarities` list built by `find_similar_patterns`:
the tuple `(corr, i, timestamp)`.  `score = none` models a NaN correlation. -/
structure Sim where
  score : Option ScoreVal
  idx : ℕ
  ts : ℤ
deriving DecidableEq

instance : Inhabited Sim := ⟨⟨none, 0, 0⟩⟩

/-- Arithmetic mean of a list of rationals (`np.mean`). -/
def mean (l : List ℚ) : ℚ := l.sum / (l.length : ℚ)

/-- The list with the mean subtracted from every entry. -/
def centered (l : List ℚ) : List ℚ := l.map (fun x => x - mean l)

/-- Sum of pointwise products of two lists. -/
def sdot (a b : List ℚ) : ℚ := (List.zipWith (fun x y => x * y) a b).sum

/-- The entry `np.corrcoef(x, y)[0, 1]` in exact arithmetic.  numpy returns
NaN exactly when one of the two centered sums of squares is zero (the 0/0
division); otherwise the value is `cov / sqrt (vx * vy)`, kept in exact
form. -/
def corrcoef (x y : List ℚ) : Option ScoreVal :=
  let cx := centered x
  let cy := centered y
  let vx := sdot cx cx
  let vy := sdot cy cy
  if vx = 0 ∨ vy = 0 then none else some ⟨sdot cx cy, vx, vy⟩

/-- Decides `s.cov / sqrt (s.vx * s.vy) < t.cov / sqrt (t.vx * t.vy)` for
valid scores (positive variances) by sign analysis and cross-squaring:
this is the float `<` on the exact correlation values. -/
def ScoreVal.lt (s t : ScoreVal) : Bool :=
  let a := s.cov
  let b := t.cov
  let p := s.vx * s.vy
  let q := t.vx * t.vy
  if a < 0 then (0 ≤ b) || (b ^ 2 * p < a ^ 2 * q)
  else if a = 0 then decide (0 < b)
  else (0 < b) && (a ^ 2 * q < b ^ 2 * p)

/-- Float `<` on correlation keys: any comparison against NaN is false. -/
def keyLt : Option ScoreVal → Option ScoreVal → Bool
  | some s, some t => s.lt t
  | _, _ => false

/-- Float `>=` on correlation keys: any comparison against NaN is false. -/
def keyGe : Option ScoreVal → Option ScoreVal → Bool
  | some s, some t => !(s.lt t)
  | _, _ => false

/-- Insert one element into an already sorted list: it goes in front of the
first element whose key it is not strictly below.  For totally ordered keys
this realises the stable descending sort of Python's `list.sort` with
`reverse=True` (earlier elements stay in front on equal keys). -/
def ordIns (a : Sim) : List Sim → List Sim
  | [] => [a]
  | b :: l => if keyLt a.score b.score then b :: ordIns a l else a :: b :: l

/-- The sort `similarities.sort(key=lambda x: x[0], reverse=True)`: stable
sort by correlation key, descending. -/
def sortDesc : List Sim → List Sim
  | [] => []
  | a :: l => ordIns a (sortDesc l)

/-- The calendar-day dedup key of `ts.strftime("%Y-%m-%d")`: two epoch
millisecond timestamps render the same date string iff they lie in the same
UTC day, i.e. have the same floor division by 86400000. -/
def dayOf (t : ℤ) : ℤ := Int.fdiv t 86400000

/-- The close column of the data frame. -/
def closes (df : List Bar) : List ℚ := df.map Bar.close

/-- The current pattern `df["close"].iloc[-window:].values`.  Python
slicing: for `window = 0` the slice `[-0:]` is the whole column; otherwise
it is the last `window` entries (all of them when `window` exceeds the
length). -/
def currentWindow (df : List Bar) (window : ℕ) : List ℚ :=
  if window = 0 then closes df
  else (closes df).drop ((closes df).length - window)

/-- The slice `df["close"].iloc[i:i+window].values`. -/
def pastSlice (df : List Bar) (window i : ℕ) : List ℚ :=
  ((closes df).drop i).take window

/-- The scoring loop: for every `i` in `range(len(df) - window - forward)`
build the tuple `(corr, i, timestamp)`, skipping `i` when the guard
`len(past) < window` fires (it never does, see the in-loop safety theorem).
`df["timestamp"].iloc[i+window]` is modelled with `getD` (the index is always
in bounds). -/
def similarities (df : List Bar) (window forward : ℕ) : List Sim :=
  (List.range (df.length - window - forward)).filterMap (fun i =>
    let past := pastSlice df window i
    if past.length < window then none
    else some ⟨corrcoef (currentWindow df window) past, i,
               (df.getD (i + window) default).timestamp⟩)

/-- The candidate list after `similarities.sort(key=..., reverse=True)`. -/
def sortedSimilarities (df : List Bar) (window forward : ℕ) : List Sim :=
  sortDesc (similarities df window forward)

/-- The selection loop: walk the sorted list keeping the set of already
picked days; append a candidate when its day is fresh; after each candidate
stop as soon as `len(results) >= top_n`. -/
def selectLoop : List Sim → List ℤ → List Sim → ℤ → List Sim
  | [], _, results, _ => results
  | s :: rest, picked, results, top_n =>
    if dayOf s.ts ∈ picked then
      if (results.length : ℤ) ≥ top_n then results
      else selectLoop rest picked results top_n
    else
      if ((results ++ [s]).length : ℤ) ≥ top_n then results ++ [s]
      else selectLoop rest (dayOf s.ts :: picked) (results ++ [s]) top_n

/-- The search `find_similar_patterns(df, window, forward, top_n)` from
`maincode.py`: score every eligible start index, sort by correlation
descending, then pick at most one candidate per calendar day up to
`top_n`. -/
def find_similar_patterns (df : List Bar) (window forward : ℕ) (top_n : ℤ) :
    List Sim :=
  selectLoop (sortedSimilarities df window forward) [] [] top_n

/-- Number of distinct calendar days among the scored candidates. -/
def distinctDayCount (df : List Bar) (window forward : ℕ) : ℕ :=
  ((similarities df window forward).map (fun s => dayOf s.ts)).toFinset.card

/-- Count of days of a candidate list not yet in the picked set, each
counted once (recursion following the selection loop). -/
def countNewDays : List Sim → List ℤ → ℕ
  | [], _ => 0
  | s :: l, picked =>
    if dayOf s.ts ∈ picked then countNewDays l picked
    else countNewDays l (dayOf s.ts :: picked) + 1

/-- The real number a `ScoreVal` stands for: the Pearson correlation
`cov / sqrt (vx * vy)`.  This is the idealised value of the float that the
source manipulates. -/
noncomputable def ScoreVal.toReal (s : ScoreVal) : ℝ :=
  (s.cov : ℝ) / Real.sqrt ((s.vx : ℝ) * (s.vy : ℝ))

/-- A valid (non-NaN) correlation key: present, with positive variances. -/
def ValidKey (o : Option ScoreVal) : Prop :=
  ∃ v, o = some v ∧ 0 < v.vx ∧ 0 < v.vy

/-- The ordering produced by the sort on valid keys: scores non-increasing,
and on equal scores the original position (start index) increasing. -/
def Rord (x y : Sim) : Prop :=
  keyGe x.score y.score = true ∧ (keyGe y.score x.score = true → x.idx < y.idx)

/-! ### Slice and enumeration lemmas -/

theorem pastSlice_length (df : List Bar) (window i : ℕ)
    (h : i + window ≤ df.length) : (pastSlice df window i).length = window := by
  simp only [pastSlice, closes, List.length_take, List.length_drop,
    List.length_map]
  omega

theorem filterMap_eq_map_of_forall {α β : Type} (f : α → Option β) (g : α → β)
    (l : List α) (h : ∀ x ∈ l, f x = some (g x)) : l.filterMap f = l.map g := by
  induction l with
  | nil => rfl
  | cons a l ih =>
    rw [List.filterMap_cons, h a (by simp), List.map_cons,
      ih (fun x hx => h x (List.mem_cons_of_mem a hx))]

theorem similarities_eq_map (df : List Bar) (window forward : ℕ) :
    similarities df window forward =
      (List.range (df.length - window - forward)).map (fun i =>
        ⟨corrcoef (currentWindow df window) (pastSlice df window i), i,
         (df.getD (i + window) default).timestamp⟩) := by
  apply filterMap_eq_map_of_forall
  intro i hi
  rw [List.mem_range] at hi
  have hlen : (pastSlice df window i).length = window :=
    pastSlice_length df window i (by omega)
  simp only [hlen, lt_irrefl, if_false]

/-! ### Membership through the sort -/

theorem ordIns_mem (a x : Sim) (l : List Sim) :
    x ∈ ordIns a l ↔ x = a ∨ x ∈ l := by
  induction l with
  | nil => simp [ordIns]
  | cons b m ih =>
    simp only [ordIns]
    split
    · simp only [List.mem_cons, ih]
      tauto
    · simp [List.mem_cons]

theorem sortDesc_mem (x : Sim) (l : List Sim) : x ∈ sortDesc l ↔ x ∈ l := by
  induction l with
  | nil => simp [sortDesc]
  | cons a m ih => simp [sortDesc, ordIns_mem, ih]

/-! ### Selection-loop invariants -/

theorem selectLoop_pairwise_days (l : List Sim) (picked : List ℤ)
    (results : List Sim) (t : ℤ)
    (hres : results.Pairwise (fun a b => dayOf a.ts ≠ dayOf b.ts))
    (hpick : ∀ r ∈ results, dayOf r.ts ∈ picked) :
    (selectLoop l picked results t).Pairwise
      (fun a b => dayOf a.ts ≠ dayOf b.ts) := by
  induction l generalizing picked results with
  | nil => exact hres
  | cons s rest ih =>
    simp only [selectLoop]
    by_cases hmem : dayOf s.ts ∈ picked
    · rw [if_pos hmem]
      split
      · exact hres
      · exact ih _ _ hres hpick
    · rw [if_neg hmem]
      have hres' : (results ++ [s]).Pairwise
          (fun a b => dayOf a.ts ≠ dayOf b.ts) := by
        rw [List.pairwise_append]
        refine ⟨hres, List.pairwise_singleton _ _, ?_⟩
        intro a ha b hb
        rw [List.mem_singleton] at hb
        subst hb
        exact fun hEq => hmem (hEq ▸ hpick a ha)
      have hpick' : ∀ r ∈ results ++ [s], dayOf r.ts ∈ dayOf s.ts :: picked := by
        intro r hr
        rcases List.mem_append.1 hr with h1 | h1
        · exact List.mem_cons_of_mem _ (hpick r h1)
        · rw [List.mem_singleton] at h1
          subst h1
          exact List.mem_cons_self _ _
      split
      · exact hres'
      · exact ih _ _ hres' hpick'

theorem selectLoop_length_le (l : List Sim) (p : List ℤ) (r : List Sim) (t : ℤ)
    (h : (r.length : ℤ) < t) : ((selectLoop l p r t).length : ℤ) ≤ t := by
  induction l generalizing p r with
  | nil => exact le_of_lt h
  | cons s rest ih =>
    simp only [selectLoop]
    by_cases hmem : dayOf s.ts ∈ p
    · rw [if_pos hmem]
      split
      · exact le_of_lt h
      · exact ih _ _ h
    · rw [if_neg hmem]
      have hl : (((r ++ [s]).length : ℕ) : ℤ) = (r.length : ℤ) + 1 := by
        simp
      split
      · omega
      · rename_i hbr
        rw [hl] at hbr
        exact ih _ _ (by omega)

theorem selectLoop_nonpos_len (l : List Sim) (t : ℤ) (ht : t ≤ 0) :
    (selectLoop l [] [] t).length = min l.length 1 := by
  cases l with
  | nil => rfl
  | cons s rest =>
    have hmem : ¬ dayOf s.ts ∈ ([] : List ℤ) := by simp
    have hbr : ((([] : List Sim) ++ [s]).length : ℤ) ≥ t := by
      simp
      omega
    simp only [selectLoop, if_neg hmem, if_pos hbr]
    simp

theorem selectLoop_length_le_newdays (l : List Sim) (p : List ℤ) (r : List Sim)
    (t : ℤ) : (selectLoop l p r t).length ≤ r.length + countNewDays l p := by
  induction l generalizing p r with
  | nil => simp [selectLoop, countNewDays]
  | cons s rest ih =>
    simp only [selectLoop, countNewDays]
    by_cases hmem : dayOf s.ts ∈ p
    · rw [if_pos hmem, if_pos hmem]
      split
      · exact Nat.le_add_right _ _
      · exact ih _ _
    · rw [if_neg hmem, if_neg hmem]
      split
      · simp only [List.length_append, List.length_singleton]
        omega
      · have := ih (dayOf s.ts :: p) (r ++ [s])
        simp only [List.length_append, List.length_singleton] at this
        omega

theorem selectLoop_length_exhaust (l : List Sim) (p : List ℤ) (r : List Sim)
    (t : ℤ) (h : ((r.length + countNewDays l p : ℕ) : ℤ) ≤ t) :
    (selectLoop l p r t).length = r.length + countNewDays l p := by
  induction l generalizing p r with
  | nil => simp [selectLoop, countNewDays]
  | cons s rest ih =>
    simp only [countNewDays] at h
    simp only [selectLoop, countNewDays]
    by_cases hmem : dayOf s.ts ∈ p
    · rw [if_pos hmem] at h
      rw [if_pos hmem, if_pos hmem]
      split
      · omega
      · exact ih _ _ h
    · rw [if_neg hmem] at h
      rw [if_neg hmem, if_neg hmem]
      split
      · rename_i hbr
        simp only [List.length_append, List.length_singleton] at hbr ⊢
        omega
      · rename_i hbr
        have hrec := ih (dayOf s.ts :: p) (r ++ [s])
          (by simp only [List.length_append, List.length_singleton]
              push_cast at h ⊢
              omega)
        rw [hrec]
        simp only [List.length_append, List.length_singleton]
        omega

theorem countNewDays_eq_card (l : List Sim) (p : List ℤ) :
    countNewDays l p =
      ((l.map (fun s => dayOf s.ts)).toFinset \ p.toFinset).card := by
  induction l generalizing p with
  | nil => simp [countNewDays]
  | cons s rest ih =>
    simp only [countNewDays, List.map_cons, List.toFinset_cons]
    by_cases hmem : dayOf s.ts ∈ p
    · rw [if_pos hmem, ih, Finset.insert_sdiff_of_mem _ (by simpa using hmem)]
    · rw [if_neg hmem, ih]
      have hnp : dayOf s.ts ∉ p.toFinset := by simpa using hmem
      rw [List.toFinset_cons, Finset.sdiff_insert,
        Finset.insert_sdiff_of_not_mem _ hnp]
      set S := (rest.map (fun s => dayOf s.ts)).toFinset \ p.toFinset with hS
      by_cases hd : dayOf s.ts ∈ S
      · rw [Finset.insert_eq_self.2 hd, Finset.card_erase_of_mem hd]
        have : 0 < S.card := Finset.card_pos.2 ⟨_, hd⟩
        omega
      · rw [Finset.card_insert_of_not_mem hd, Finset.erase_eq_of_not_mem hd]

/-! ### The real number denoted by a score, and correctness of the
comparison used in the sort -/

theorem sdot_self_nonneg (a : List ℚ) : 0 ≤ sdot a a := by
  induction a with
  | nil => simp [sdot]
  | cons x l ih =>
    simp only [sdot, List.zipWith_cons_cons, List.sum_cons] at ih ⊢
    nlinarith [mul_self_nonneg x]

theorem sdot_cons (x y : ℚ) (l m : List ℚ) :
    sdot (x :: l) (y :: m) = x * y + sdot l m := by
  simp [sdot]

theorem sdot_cauchy (a : List ℚ) : ∀ b : List ℚ,
    (sdot a b) ^ 2 ≤ sdot a a * sdot b b := by
  induction a with
  | nil => intro b; simp [sdot]
  | cons x l ih =>
    intro b
    cases b with
    | nil => simp [sdot]
    | cons y m =>
      have iH := ih m
      have hA := sdot_self_nonneg l
      have hB := sdot_self_nonneg m
      rw [sdot_cons, sdot_cons, sdot_cons]
      rcases eq_or_lt_of_le hB with hB0 | hBpos
      · have hS : sdot l m = 0 := by nlinarith [sq_nonneg (sdot l m)]
        rw [hS, ← hB0]
        nlinarith [mul_nonneg (sq_nonneg y) hA]
      · nlinarith [sq_nonneg (x * sdot m m - y * sdot l m),
          mul_nonneg (by positivity : (0 : ℚ) ≤ y ^ 2 + sdot m m)
            (sub_nonneg.2 iH)]

theorem mul_sqrt_lt_mul_sqrt_iff (u v P Q : ℝ) (hu : 0 ≤ u) (hv : 0 ≤ v)
    (hP : 0 ≤ P) (hQ : 0 ≤ Q) :
    u * Real.sqrt Q < v * Real.sqrt P ↔ u ^ 2 * Q < v ^ 2 * P := by
  have h1 : u * Real.sqrt Q = Real.sqrt (u ^ 2 * Q) := by
    rw [Real.sqrt_mul (sq_nonneg u), Real.sqrt_sq hu]
  have h2 : v * Real.sqrt P = Real.sqrt (v ^ 2 * P) := by
    rw [Real.sqrt_mul (sq_nonneg v), Real.sqrt_sq hv]
  rw [h1, h2, Real.sqrt_lt_sqrt_iff (by positivity)]

/-- The boolean comparison `ScoreVal.lt` decides exactly the strict order of
the denoted real correlation values, for scores with positive variances. -/
theorem scoreVal_lt_iff (s t : ScoreVal) (hsx : 0 < s.vx) (hsy : 0 < s.vy)
    (htx : 0 < t.vx) (hty : 0 < t.vy) :
    ScoreVal.lt s t = true ↔ s.toReal < t.toReal := by
  have hP : (0 : ℝ) < (s.vx : ℝ) * (s.vy : ℝ) := by positivity
  have hQ : (0 : ℝ) < (t.vx : ℝ) * (t.vy : ℝ) := by positivity
  have hsP : 0 < Real.sqrt ((s.vx : ℝ) * (s.vy : ℝ)) := Real.sqrt_pos.2 hP
  have hsQ : 0 < Real.sqrt ((t.vx : ℝ) * (t.vy : ℝ)) := Real.sqrt_pos.2 hQ
  rw [ScoreVal.toReal, ScoreVal.toReal, div_lt_div_iff hsP hsQ]
  simp only [ScoreVal.lt]
  rcases lt_trichotomy s.cov 0 with ha | ha | ha
  · have haR : (s.cov : ℝ) < 0 := by exact_mod_cast ha
    rw [if_pos ha]
    simp only [Bool.or_eq_true, decide_eq_true_eq]
    have hneg : (s.cov : ℝ) * Real.sqrt ((t.vx : ℝ) * (t.vy : ℝ)) < 0 :=
      mul_neg_of_neg_of_pos haR hsQ
    constructor
    · rintro (hb | hlt)
      · have hbR : (0 : ℝ) ≤ (t.cov : ℝ) := by exact_mod_cast hb
        have : (0 : ℝ) ≤ (t.cov : ℝ) * Real.sqrt ((s.vx : ℝ) * (s.vy : ℝ)) :=
          mul_nonneg hbR (le_of_lt hsP)
        linarith
      · by_cases hb : (0 : ℚ) ≤ t.cov
        · have hbR : (0 : ℝ) ≤ (t.cov : ℝ) := by exact_mod_cast hb
          have : (0 : ℝ) ≤ (t.cov : ℝ) * Real.sqrt ((s.vx : ℝ) * (s.vy : ℝ)) :=
            mul_nonneg hbR (le_of_lt hsP)
          linarith
        · push_neg at hb
          have hbR : (t.cov : ℝ) < 0 := by exact_mod_cast hb
          have hltR : (t.cov : ℝ) ^ 2 * ((s.vx : ℝ) * (s.vy : ℝ)) <
              (s.cov : ℝ) ^ 2 * ((t.vx : ℝ) * (t.vy : ℝ)) := by
            exact_mod_cast hlt
          have key := mul_sqrt_lt_mul_sqrt_iff (-(t.cov : ℝ)) (-(s.cov : ℝ))
            ((t.vx : ℝ) * (t.vy : ℝ)) ((s.vx : ℝ) * (s.vy : ℝ))
            (by linarith) (by linarith) (le_of_lt hQ) (le_of_lt hP)
          simp only [neg_sq] at key
          have := key.2 hltR
          linarith
    · intro h
      by_cases hb : (0 : ℚ) ≤ t.cov
      · exact Or.inl hb
      · push_neg at hb
        have hbR : (t.cov : ℝ) < 0 := by exact_mod_cast hb
        refine Or.inr ?_
        have key := mul_sqrt_lt_mul_sqrt_iff (-(t.cov : ℝ)) (-(s.cov : ℝ))
          ((t.vx : ℝ) * (t.vy : ℝ)) ((s.vx : ℝ) * (s.vy : ℝ))
          (by linarith) (by linarith) (le_of_lt hQ) (le_of_lt hP)
        simp only [neg_sq] at key
        have hltR : (t.cov : ℝ) ^ 2 * ((s.vx : ℝ) * (s.vy : ℝ)) <
            (s.cov : ℝ) ^ 2 * ((t.vx : ℝ) * (t.vy : ℝ)) := key.1 (by linarith)
        exact_mod_cast hltR
  · have haR : ((s.cov : ℝ)) = 0 := by exact_mod_cast ha
    rw [if_neg (by rw [ha]; exact lt_irrefl 0), if_pos ha]
    rw [haR, zero_mul]
    simp only [decide_eq_true_eq]
    constructor
    · intro hb
      have hbR : (0 : ℝ) < (t.cov : ℝ) := by exact_mod_cast hb
      exact mul_pos hbR hsP
    · intro h
      by_contra hb
      push_neg at hb
      have hbR : (t.cov : ℝ) ≤ 0 := by exact_mod_cast hb
      have : (t.cov : ℝ) * Real.sqrt ((s.vx : ℝ) * (s.vy : ℝ)) ≤ 0 :=
        mul_nonpos_of_nonpos_of_nonneg hbR (le_of_lt hsP)
      linarith
  · have haR : (0 : ℝ) < (s.cov : ℝ) := by exact_mod_cast ha
    rw [if_neg (asymm ha), if_neg (Ne.symm (ne_of_lt ha))]
    simp only [Bool.and_eq_true, decide_eq_true_eq]
    have key := mul_sqrt_lt_mul_sqrt_iff (s.cov : ℝ) (t.cov : ℝ)
      ((s.vx : ℝ) * (s.vy : ℝ)) ((t.vx : ℝ) * (t.vy : ℝ))
      (le_of_lt haR)
    constructor
    · rintro ⟨hb, hlt⟩
      have hbR : (0 : ℝ) < (t.cov : ℝ) := by exact_mod_cast hb
      have hltR : (s.cov : ℝ) ^ 2 * ((t.vx : ℝ) * (t.vy : ℝ)) <
          (t.cov : ℝ) ^ 2 * ((s.vx : ℝ) * (s.vy : ℝ)) := by exact_mod_cast hlt
      exact (key (le_of_lt hbR) (le_of_lt hP) (le_of_lt hQ)).2 hltR
    · intro h
      have hApos : 0 < (s.cov : ℝ) * Real.sqrt ((t.vx : ℝ) * (t.vy : ℝ)) :=
        mul_pos haR hsQ
      have hbR : (0 : ℝ) < (t.cov : ℝ) := by
        by_contra hb
        push_neg at hb
        have : (t.cov : ℝ) * Real.sqrt ((s.vx : ℝ) * (s.vy : ℝ)) ≤ 0 :=
          mul_nonpos_of_nonpos_of_nonneg hb (le_of_lt hsP)
        linarith
      refine ⟨by exact_mod_cast hbR, ?_⟩
      have hltR := (key (le_of_lt hbR) (le_of_lt hP) (le_of_lt hQ)).1 h
      exact_mod_cast hltR

/-! ### Valid keys and order facts used by the sort -/

theorem corrcoef_some_props (x y : List ℚ) (v : ScoreVal)
    (h : corrcoef x y = some v) :
    0 < v.vx ∧ 0 < v.vy ∧ v.cov ^ 2 ≤ v.vx * v.vy := by
  simp only [corrcoef] at h
  split at h
  · cases h
  · rename_i hcond
    push_neg at hcond
    cases h
    refine ⟨lt_of_le_of_ne (sdot_self_nonneg _) (Ne.symm hcond.1),
      lt_of_le_of_ne (sdot_self_nonneg _) (Ne.symm hcond.2), ?_⟩
    exact sdot_cauchy _ _

theorem keyGe_some (a b : ScoreVal) :
    keyGe (some a) (some b) = !(ScoreVal.lt a b) := rfl

theorem keyLt_asymm (o₁ o₂ : Option ScoreVal) (h₁ : ValidKey o₁)
    (h₂ : ValidKey o₂) (h : keyLt o₁ o₂ = true) : keyLt o₂ o₁ = false := by
  obtain ⟨a, rfl, hax, hay⟩ := h₁
  obtain ⟨b, rfl, hbx, hby⟩ := h₂
  simp only [keyLt] at h ⊢
  rw [scoreVal_lt_iff a b hax hay hbx hby] at h
  rw [Bool.eq_false_iff]
  intro hc
  rw [scoreVal_lt_iff b a hbx hby hax hay] at hc
  linarith

theorem keyLt_neg_trans (o₁ o₂ o₃ : Option ScoreVal) (h₁ : ValidKey o₁)
    (h₂ : ValidKey o₂) (h₃ : ValidKey o₃) (h12 : keyLt o₁ o₂ = false)
    (h23 : keyLt o₂ o₃ = false) : keyLt o₁ o₃ = false := by
  obtain ⟨a, rfl, hax, hay⟩ := h₁
  obtain ⟨b, rfl, hbx, hby⟩ := h₂
  obtain ⟨c, rfl, hcx, hcy⟩ := h₃
  simp only [keyLt] at h12 h23 ⊢
  have h12R : ¬ a.toReal < b.toReal := fun hR => by
    rw [← scoreVal_lt_iff a b hax hay hbx hby] at hR
    rw [h12] at hR
    cases hR
  have h23R : ¬ b.toReal < c.toReal := fun hR => by
    rw [← scoreVal_lt_iff b c hbx hby hcx hcy] at hR
    rw [h23] at hR
    cases hR
  rw [Bool.eq_false_iff]
  intro hc
  rw [scoreVal_lt_iff a c hax hay hcx hcy] at hc
  have := not_lt.1 h12R
  have := not_lt.1 h23R
  linarith

theorem keyGe_iff_not_lt (o₁ o₂ : Option ScoreVal) (h₁ : ValidKey o₁)
    (h₂ : ValidKey o₂) : keyGe o₁ o₂ = true ↔ keyLt o₁ o₂ = false := by
  obtain ⟨a, rfl, _, _⟩ := h₁
  obtain ⟨b, rfl, _, _⟩ := h₂
  simp only [keyGe, keyLt, Bool.not_eq_true']

/-! ### The sorted list: descending scores, stable on ties -/

theorem ordIns_pairwise_Rord (a : Sim) (l : List Sim)
    (hva : ValidKey a.score) (hvl : ∀ x ∈ l, ValidKey x.score)
    (hidx : ∀ x ∈ l, a.idx < x.idx)
    (hp : l.Pairwise Rord) : (ordIns a l).Pairwise Rord := by
  induction l with
  | nil => simp [ordIns]
  | cons b m ih =>
    rw [List.pairwise_cons] at hp
    obtain ⟨hb_all, hpm⟩ := hp
    have hvb : ValidKey b.score := hvl b (List.mem_cons_self b m)
    simp only [ordIns]
    split
    · rename_i hlt
      rw [List.pairwise_cons]
      constructor
      · intro c hc
        rw [ordIns_mem] at hc
        rcases hc with rfl | hc
        · refine ⟨?_, ?_⟩
          · rw [keyGe_iff_not_lt _ _ hvb hva]
            exact keyLt_asymm _ _ hva hvb hlt
          · intro hge
            rw [keyGe_iff_not_lt _ _ hva hvb] at hge
            rw [hge] at hlt
            cases hlt
        · exact hb_all c hc
      · exact ih (fun x hx => hvl x (List.mem_cons_of_mem b hx))
          (fun x hx => hidx x (List.mem_cons_of_mem b hx)) hpm
    · rename_i hnlt
      rw [Bool.not_eq_true] at hnlt
      rw [List.pairwise_cons]
      constructor
      · intro c hc
        rcases List.mem_cons.1 hc with rfl | hc
        · refine ⟨(keyGe_iff_not_lt _ _ hva hvb).2 hnlt,
            fun _ => hidx c (List.mem_cons_self c m)⟩
        · have hvc : ValidKey c.score := hvl c (List.mem_cons_of_mem b hc)
          have hbc : keyLt b.score c.score = false := by
            have := (hb_all c hc).1
            rwa [keyGe_iff_not_lt _ _ hvb hvc] at this
          refine ⟨(keyGe_iff_not_lt _ _ hva hvc).2
            (keyLt_neg_trans _ _ _ hva hvb hvc hnlt hbc),
            fun _ => hidx c (List.mem_cons_of_mem b hc)⟩
      · rw [List.pairwise_cons]
        exact ⟨hb_all, hpm⟩

theorem sortDesc_pairwise_Rord (l : List Sim)
    (hv : ∀ x ∈ l, ValidKey x.score)
    (hidx : l.Pairwise (fun x y => x.idx < y.idx)) :
    (sortDesc l).Pairwise Rord := by
  induction l with
  | nil => simp [sortDesc]
  | cons a m ih =>
    rw [List.pairwise_cons] at hidx
    simp only [sortDesc]
    apply ordIns_pairwise_Rord
    · exact hv a (List.mem_cons_self a m)
    · intro x hx
      exact hv x (List.mem_cons_of_mem a ((sortDesc_mem x m).1 hx))
    · intro x hx
      exact hidx.1 x ((sortDesc_mem x m).1 hx)
    · exact ih (fun x hx => hv x (List.mem_cons_of_mem a hx)) hidx.2

theorem similarities_idx_pairwise (df : List Bar) (w f : ℕ) :
    (similarities df w f).Pairwise (fun x y => x.idx < y.idx) := by
  rw [similarities_eq_map, List.pairwise_map]
  simpa using List.pairwise_lt_range _

theorem similarities_valid (df : List Bar) (w f : ℕ)
    (h : ∀ s ∈ similarities df w f, s.score ≠ none) :
    ∀ s ∈ similarities df w f, ValidKey s.score := by
  intro s hs
  have hscore : ∃ x y, s.score = corrcoef x y := by
    rw [similarities_eq_map] at hs
    obtain ⟨i, _, rfl⟩ := List.mem_map.1 hs
    exact ⟨_, _, rfl⟩
  obtain ⟨x, y, hxy⟩ := hscore
  have hnn := h s hs
  rw [hxy] at hnn ⊢
  cases hcc : corrcoef x y with
  | none => exact absurd hcc hnn
  | some v =>
    obtain ⟨h1, h2, _⟩ := corrcoef_some_props x y v hcc
    exact ⟨v, rfl, h1, h2⟩

theorem selectLoop_split (l : List Sim) (p : List ℤ) (r : List Sim) (t : ℤ) :
    ∃ u, selectLoop l p r t = r ++ u ∧ u.Sublist l := by
  induction l generalizing p r with
  | nil => exact ⟨[], by simp [selectLoop], List.nil_sublist _⟩
  | cons s rest ih =>
    simp only [selectLoop]
    by_cases hmem : dayOf s.ts ∈ p
    · rw [if_pos hmem]
      split
      · exact ⟨[], by simp, List.nil_sublist _⟩
      · obtain ⟨u, hu, hsub⟩ := ih p r
        exact ⟨u, hu, hsub.cons s⟩
    · rw [if_neg hmem]
      split
      · exact ⟨[s], rfl, (List.nil_sublist rest).cons₂ s⟩
      · obtain ⟨u, hu, hsub⟩ := ih (dayOf s.ts :: p) (r ++ [s])
        refine ⟨s :: u, ?_, hsub.cons₂ s⟩
        rw [hu, List.append_assoc, List.singleton_append]

/-! ### Scorer facts: self-similarity and range -/

theorem sdot_self_eq_zero (l : List ℚ) (h : sdot l l = 0) : ∀ x ∈ l, x = 0 := by
  induction l with
  | nil => simp
  | cons a m ih =>
    rw [sdot_cons] at h
    have hA := sdot_self_nonneg m
    have ha2 : 0 ≤ a * a := mul_self_nonneg a
    have ha : a * a = 0 := by linarith
    have hm : sdot m m = 0 := by linarith
    intro x hx
    rcases List.mem_cons.1 hx with rfl | hx
    · exact mul_self_eq_zero.1 ha
    · exact ih hm x hx

theorem centered_var_ne_zero (w : List ℚ) (a b : ℚ) (ha : a ∈ w) (hb : b ∈ w)
    (hne : a ≠ b) : sdot (centered w) (centered w) ≠ 0 := by
  intro h0
  have hz := sdot_self_eq_zero _ h0
  have hA : a - mean w = 0 := hz _ (List.mem_map_of_mem _ ha)
  have hB : b - mean w = 0 := hz _ (List.mem_map_of_mem _ hb)
  apply hne
  linarith

theorem corrcoef_self_eq_one (w : List ℚ)
    (h : sdot (centered w) (centered w) ≠ 0) :
    ∃ v, corrcoef w w = some v ∧ v.toReal = 1 := by
  refine ⟨⟨sdot (centered w) (centered w), sdot (centered w) (centered w),
    sdot (centered w) (centered w)⟩, ?_, ?_⟩
  · simp only [corrcoef]
    rw [if_neg (by push_neg; exact ⟨h, h⟩)]
  · have hpos : 0 < sdot (centered w) (centered w) :=
      lt_of_le_of_ne (sdot_self_nonneg _) (Ne.symm h)
    simp only [ScoreVal.toReal]
    have hVR : (0 : ℝ) < ((sdot (centered w) (centered w) : ℚ) : ℝ) := by
      exact_mod_cast hpos
    rw [Real.sqrt_mul_self (le_of_lt hVR)]
    exact div_self (ne_of_gt hVR)

theorem corrcoef_range (x y : List ℚ) (v : ScoreVal)
    (h : corrcoef x y = some v) : -1 ≤ v.toReal ∧ v.toReal ≤ 1 := by
  obtain ⟨hx, hy, hcs⟩ := corrcoef_some_props x y v h
  have hP : (0 : ℝ) < (v.vx : ℝ) * (v.vy : ℝ) := by positivity
  have hsP := Real.sqrt_pos.2 hP
  have habs : |(v.cov : ℝ)| ≤ Real.sqrt ((v.vx : ℝ) * (v.vy : ℝ)) := by
    apply Real.abs_le_sqrt
    have hcast : ((v.cov ^ 2 : ℚ) : ℝ) ≤ ((v.vx * v.vy : ℚ) : ℝ) := by
      exact_mod_cast hcs
    push_cast at hcast
    linarith
  have habs1 : |v.toReal| ≤ 1 := by
    rw [ScoreVal.toReal, abs_div, abs_of_pos hsP, div_le_one hsP]
    exact habs
  exact abs_le.1 habs1

/-! ### Distinct-day count of the sorted list -/

theorem countNewDays_sorted_eq (df : List Bar) (w f : ℕ) :
    countNewDays (sortedSimilarities df w f) [] = distinctDayCount df w f := by
  rw [countNewDays_eq_card]
  simp only [List.toFinset_nil, Finset.sdiff_empty, distinctDayCount]
  congr 1
  apply Finset.ext
  intro d
  simp only [List.mem_toFinset, List.mem_map, sortedSimilarities]
  constructor
  · rintro ⟨s, hs, rfl⟩
    exact ⟨s, (sortDesc_mem s _).1 hs, rfl⟩
  · rintro ⟨s, hs, rfl⟩
    exact ⟨s, (sortDesc_mem s _).2 hs, rfl⟩

/-! ## Claim theorems -/

/-- C1: Diversity invariant — in the list returned by
`find_similar_patterns`, no two matches share the same calendar day (the day
derived from the match's anchor timestamp): a candidate is accepted only if
its day is not already picked, and accepted days are marked used. -/
theorem C1_diversity (df : List Bar) (window forward : ℕ) (top_n : ℤ) :
    (find_similar_patterns df window forward top_n).Pairwise
      (fun a b => dayOf a.ts ≠ dayOf b.ts) :=
  selectLoop_pairwise_days _ [] [] _ List.Pairwise.nil (by simp)

/-- C2 (amended): Bound invariants for the result length.  The original
claim fails for `top_n ≤ 0`: the loop appends the first candidate before
checking the bound, so the result has one element whenever any candidate
exists.  What holds: the length is at most `max top_n 1`; for `top_n ≥ 1`
it is at most `top_n`; for `top_n ≤ 0` it is at most one (not zero); it
never exceeds the number of distinct candidate days; and when `top_n` is at
least that number, every distinct day is represented (all available
candidates are returned, without error). -/
theorem C2_length_bounds (df : List Bar) (window forward : ℕ) (t : ℤ) :
    ((find_similar_patterns df window forward t).length : ℤ) ≤ max t 1 ∧
    (1 ≤ t → ((find_similar_patterns df window forward t).length : ℤ) ≤ t) ∧
    (t ≤ 0 → (find_similar_patterns df window forward t).length ≤ 1) ∧
    (find_similar_patterns df window forward t).length ≤
      distinctDayCount df window forward ∧
    ((distinctDayCount df window forward : ℤ) ≤ t →
      (find_similar_patterns df window forward t).length =
        distinctDayCount df window forward) := by
  simp only [find_similar_patterns]
  have hbridge := countNewDays_sorted_eq df window forward
  have hle : ∀ _ : 1 ≤ t,
      ((selectLoop (sortedSimilarities df window forward) [] [] t).length : ℤ)
        ≤ t := by
    intro h1
    exact selectLoop_length_le _ [] [] t (by simp; omega)
  have hnp : ∀ _ : t ≤ 0,
      (selectLoop (sortedSimilarities df window forward) [] [] t).length ≤ 1 := by
    intro h0
    rw [selectLoop_nonpos_len _ _ h0]
    exact Nat.min_le_right _ _
  refine ⟨?_, hle, hnp, ?_, ?_⟩
  · rcases le_or_lt t 0 with h0 | h1
    · have := hnp h0
      have h2 : (1 : ℤ) ≤ max t 1 := le_max_right t 1
      omega
    · have := hle h1
      have h2 : t ≤ max t 1 := le_max_left t 1
      omega
  · have := selectLoop_length_le_newdays
      (sortedSimilarities df window forward) [] [] t
    rw [hbridge] at this
    simpa using this
  · intro hd
    have := selectLoop_length_exhaust
      (sortedSimilarities df window forward) [] [] t
      (by rw [hbridge]; simpa using hd)
    rw [hbridge] at this
    simpa using this

/-- C2 counterexample: with `top_n = 0` the claim demands an empty result
(`len(result) ≤ top_n`), but on a two-bar series with one candidate the
code returns one match. -/
theorem C2_counterexample :
    ¬ (((find_similar_patterns [⟨0, 1⟩, ⟨86400000, 2⟩] 1 0 0).length : ℤ)
        ≤ 0) := by
  have heval : find_similar_patterns [⟨0, 1⟩, ⟨86400000, 2⟩] 1 0 0 =
      [⟨none, 0, 86400000⟩] := by
    norm_num [find_similar_patterns, sortedSimilarities, similarities, closes,
      pastSlice, currentWindow, corrcoef, centered, mean, sdot, sortDesc,
      ordIns, selectLoop, dayOf, List.range_succ]
  rw [heval]
  norm_num

/-- C2 witness: the amended bounds applied on a concrete series. -/
theorem C2_witness :
    ((find_similar_patterns [⟨0, 1⟩, ⟨86400000, 2⟩] 1 0 5).length : ℤ) ≤ 5 ∧
    (find_similar_patterns [⟨0, 1⟩, ⟨86400000, 2⟩] 1 0 0).length ≤ 1 ∧
    (find_similar_patterns [⟨0, 1⟩, ⟨86400000, 2⟩] 1 0 5).length =
      distinctDayCount [⟨0, 1⟩, ⟨86400000, 2⟩] 1 0 := by
  refine ⟨(C2_length_bounds _ 1 0 5).2.1 (by norm_num),
          (C2_length_bounds _ 1 0 0).2.2.1 (by norm_num),
          (C2_length_bounds _ 1 0 5).2.2.2.2 ?_⟩
  have heval : distinctDayCount [⟨0, 1⟩, ⟨86400000, 2⟩] 1 0 = 1 := by
    norm_num [distinctDayCount, similarities, closes, pastSlice,
      currentWindow, corrcoef, centered, mean, sdot, dayOf, List.range_succ,
      List.filterMap_cons, List.getD]
  rw [heval]
  norm_num

/-- C3 (amended): candidates with an invalid (NaN) score are NOT discarded
before sorting: the sorted list holds exactly the scored candidates
(identical membership, whatever their scores), and — as the counterexample
shows — a NaN-scored candidate can reach the final result. -/
theorem C3_no_filtering (df : List Bar) (window forward : ℕ) (s : Sim) :
    s ∈ sortedSimilarities df window forward ↔
      s ∈ similarities df window forward :=
  sortDesc_mem s _

/-- C3 counterexample: a candidate whose window is constant (zero variance)
gets a NaN score, yet it appears in the result returned by
`find_similar_patterns`, contradicting that such candidates never appear. -/
theorem C3_counterexample :
    ¬ (∀ s ∈ find_similar_patterns [⟨0, 1⟩, ⟨1, 1⟩, ⟨2, 2⟩] 2 0 5,
        s.score ≠ none) := by
  intro h
  have heval : find_similar_patterns [⟨0, 1⟩, ⟨1, 1⟩, ⟨2, 2⟩] 2 0 5 =
      [⟨none, 0, 2⟩] := by
    norm_num [find_similar_patterns, sortedSimilarities, similarities, closes,
      pastSlice, currentWindow, corrcoef, centered, mean, sdot, sortDesc,
      ordIns, selectLoop, dayOf, List.range_succ]
  exact h ⟨none, 0, 2⟩ (by rw [heval]; simp) rfl

/-- C6: candidate enumeration and anchors — the scoring loop produces one
candidate for every start index in `[0, len - window - forward)` in order
and no others, and each candidate's anchor timestamp is the timestamp of
the bar at `start_index + window`. -/
theorem C6_enumeration (df : List Bar) (window forward : ℕ) :
    similarities df window forward =
      (List.range (df.length - window - forward)).map (fun i =>
        ⟨corrcoef (currentWindow df window) (pastSlice df window i), i,
         (df.getD (i + window) default).timestamp⟩) :=
  similarities_eq_map df window forward

/-- C7 (amended): for a series shorter than `window + forward` the code does
NOT raise any `InsufficientData` error — the scoring loop is empty and a
normal empty result is returned. -/
theorem C7_short_series_empty (df : List Bar) (window forward : ℕ) (t : ℤ)
    (h : df.length < window + forward) :
    find_similar_patterns df window forward t = [] := by
  have h1 : df.length - window - forward = 0 := by omega
  simp [find_similar_patterns, sortedSimilarities, similarities, h1,
    sortDesc, selectLoop]

/-- C7 counterexample: a series of length `window + forward - 1` (here
`3 = 2 + 2 - 1`) yields the normal empty result — no error is surfaced,
contradicting the claimed `InsufficientData` abort. -/
theorem C7_counterexample :
    find_similar_patterns [⟨0, 1⟩, ⟨1, 2⟩, ⟨2, 3⟩] 2 2 5 = [] := by
  have h1 : ([⟨0, 1⟩, ⟨1, 2⟩, ⟨2, 3⟩] : List Bar).length - 2 - 2 = 0 := by
    norm_num
  simp [find_similar_patterns, sortedSimilarities, similarities, h1,
    sortDesc, selectLoop]

/-- C7 witness: the amended statement applied at a concrete short series. -/
theorem C7_witness :
    ([⟨0, 5⟩, ⟨1, 6⟩] : List Bar).length < 2 + 1 ∧
    find_similar_patterns [⟨0, 5⟩, ⟨1, 6⟩] 2 1 4 = [] :=
  ⟨by norm_num, C7_short_series_empty _ 2 1 4 (by norm_num)⟩

/-- C8: determinism — for equal input series and equal parameters the
search produces the identical ordered result (the embedding is a pure
function of its arguments; the source reads no other state in this
computation and uses no randomness). -/
theorem C8_deterministic (df₁ df₂ : List Bar) (window forward : ℕ) (t : ℤ)
    (h : df₁ = df₂) :
    find_similar_patterns df₁ window forward t =
      find_similar_patterns df₂ window forward t := by
  rw [h]

/-- C8 witness: determinism at a concrete input. -/
theorem C8_witness :
    find_similar_patterns [⟨0, 1⟩, ⟨86400000, 2⟩] 1 0 3 =
      find_similar_patterns [⟨0, 1⟩, ⟨86400000, 2⟩] 1 0 3 :=
  C8_deterministic _ _ 1 0 3 rfl

/-- C10: in-loop safety — for every loop index `i` below
`len(df) - window - forward`, the slice `[i, i+window)` has exactly `window`
elements (so the guard `len(past) < window` never fires and no candidate is
skipped by it), and `i + window` is strictly in bounds, so the anchor
timestamp lookup never fails. -/
theorem C10_inloop_safety (df : List Bar) (window forward i : ℕ)
    (h : i < df.length - window - forward) :
    (pastSlice df window i).length = window ∧
    ¬ ((pastSlice df window i).length < window) ∧
    i + window < df.length := by
  have h1 : (pastSlice df window i).length = window :=
    pastSlice_length df window i (by omega)
  exact ⟨h1, by rw [h1]; exact lt_irrefl window, by omega⟩

/-- C10 witness: in-loop safety at a concrete index. -/
theorem C10_witness :
    0 < ([⟨0, 1⟩, ⟨1, 2⟩, ⟨2, 3⟩, ⟨3, 4⟩] : List Bar).length - 2 - 1 ∧
    ((pastSlice [⟨0, 1⟩, ⟨1, 2⟩, ⟨2, 3⟩, ⟨3, 4⟩] 2 0).length = 2 ∧
     ¬ ((pastSlice [⟨0, 1⟩, ⟨1, 2⟩, ⟨2, 3⟩, ⟨3, 4⟩] 2 0).length < 2) ∧
     0 + 2 < ([⟨0, 1⟩, ⟨1, 2⟩, ⟨2, 3⟩, ⟨3, 4⟩] : List Bar).length) :=
  ⟨by norm_num, C10_inloop_safety _ 2 1 0 (by norm_num)⟩

/-- C4 (amended): deterministic ordering of the sorted candidate list.
The original claim fails when a NaN-scored candidate is present (NaN floats
compare false, so the list is not score-descending); provided every
candidate score is valid, the sorted list is ordered by score descending
with exact score ties broken by the smaller start index first (the sort is
stable and the pre-sort list is in start-index order). -/
theorem C4_sorted_order (df : List Bar) (window forward : ℕ)
    (h : ∀ s ∈ similarities df window forward, s.score ≠ none) :
    (sortedSimilarities df window forward).Pairwise Rord :=
  sortDesc_pairwise_Rord _ (similarities_valid df window forward h)
    (similarities_idx_pairwise df window forward)

/-- C4 counterexample: with a constant (NaN-scored) candidate window the
sorted list is not ordered by score descending: the NaN entry sits in front
of a valid entry and NaN comparisons are false. -/
theorem C4_counterexample :
    ¬ (sortedSimilarities [⟨0, 1⟩, ⟨1, 1⟩, ⟨2, 3⟩, ⟨3, 0⟩, ⟨4, 2⟩] 2 1).Pairwise
        Rord := by
  have heval : sortedSimilarities [⟨0, 1⟩, ⟨1, 1⟩, ⟨2, 3⟩, ⟨3, 0⟩, ⟨4, 2⟩] 2 1 =
      [⟨none, 0, 2⟩, ⟨some ⟨2, 2, 2⟩, 1, 3⟩] := by
    norm_num [sortedSimilarities, similarities, closes, pastSlice,
      currentWindow, corrcoef, centered, mean, sdot, sortDesc, ordIns,
      keyLt, List.range_succ, List.filterMap_cons, List.getD]
  rw [heval]
  intro hp
  rw [List.pairwise_cons] at hp
  have h1 := (hp.1 _ (List.mem_cons_self _ _)).1
  simp [keyGe] at h1

/-- C4 witness: on a series whose candidate scores are all valid, the
sorted list satisfies the descending/tie-break ordering. -/
theorem C4_witness :
    (sortedSimilarities [⟨0, 1⟩, ⟨1, 3⟩, ⟨2, 9⟩, ⟨3, 0⟩, ⟨4, 2⟩] 2 1).Pairwise
      Rord := by
  apply C4_sorted_order
  intro s hs
  have hevalS : similarities [⟨0, 1⟩, ⟨1, 3⟩, ⟨2, 9⟩, ⟨3, 0⟩, ⟨4, 2⟩] 2 1 =
      [⟨some ⟨2, 2, 2⟩, 0, 2⟩, ⟨some ⟨6, 2, 18⟩, 1, 3⟩] := by
    norm_num [similarities, closes, pastSlice, currentWindow, corrcoef,
      centered, mean, sdot, List.range_succ, List.filterMap_cons, List.getD]
  rw [hevalS] at hs
  simp only [List.mem_cons, List.not_mem_nil, or_false] at hs
  rcases hs with rfl | rfl <;> simp

/-- C5 (amended): ranking invariant.  The original claim fails when a
NaN-scored candidate reaches the result (NaN comparisons are false);
provided every candidate score is valid, consecutive entries of the result
have non-increasing scores. -/
theorem C5_result_nonincreasing (df : List Bar) (window forward : ℕ) (t : ℤ)
    (h : ∀ s ∈ similarities df window forward, s.score ≠ none) :
    ∀ i : ℕ, i + 1 < (find_similar_patterns df window forward t).length →
      keyGe ((find_similar_patterns df window forward t).getD i default).score
        ((find_similar_patterns df window forward t).getD (i + 1)
          default).score = true := by
  have hsorted : (sortedSimilarities df window forward).Pairwise Rord :=
    sortDesc_pairwise_Rord _ (similarities_valid df window forward h)
      (similarities_idx_pairwise df window forward)
  have hp : (find_similar_patterns df window forward t).Pairwise Rord := by
    obtain ⟨u, hu, hsub⟩ :=
      selectLoop_split (sortedSimilarities df window forward) [] [] t
    rw [find_similar_patterns, hu, List.nil_append]
    exact List.Pairwise.sublist hsub hsorted
  intro i hi
  have h1 : i < (find_similar_patterns df window forward t).length := by omega
  rw [List.getD_eq_get _ _ h1, List.getD_eq_get _ _ hi]
  exact ((List.pairwise_iff_get.1 hp) ⟨i, h1⟩ ⟨i + 1, hi⟩ (by simp)).1

/-- C5 counterexample: a NaN-scored candidate reaches the result in front
of a valid one, and the NaN comparison makes the non-increasing check fail
at the first adjacent pair. -/
theorem C5_counterexample :
    ¬ (∀ i : ℕ,
        i + 1 < (find_similar_patterns
          [⟨0, 5⟩, ⟨1, 5⟩, ⟨2, 7⟩, ⟨86400002, 0⟩, ⟨86400003, 2⟩] 2 1 5).length →
        keyGe ((find_similar_patterns
            [⟨0, 5⟩, ⟨1, 5⟩, ⟨2, 7⟩, ⟨86400002, 0⟩, ⟨86400003, 2⟩] 2 1 5).getD
            i default).score
          ((find_similar_patterns
            [⟨0, 5⟩, ⟨1, 5⟩, ⟨2, 7⟩, ⟨86400002, 0⟩, ⟨86400003, 2⟩] 2 1 5).getD
            (i + 1) default).score = true) := by
  have hday1 : dayOf 2 = 0 := by decide
  have hday2 : dayOf 86400002 = 1 := by decide
  have heval : find_similar_patterns
      [⟨0, 5⟩, ⟨1, 5⟩, ⟨2, 7⟩, ⟨86400002, 0⟩, ⟨86400003, 2⟩] 2 1 5 =
      [⟨none, 0, 2⟩, ⟨some ⟨2, 2, 2⟩, 1, 86400002⟩] := by
    norm_num [find_similar_patterns, sortedSimilarities, similarities,
      closes, pastSlice, currentWindow, corrcoef, centered, mean, sdot,
      sortDesc, ordIns, keyLt, selectLoop, hday1, hday2, List.range_succ,
      List.filterMap_cons, List.getD]
  intro hmono
  have hinst := hmono 0 (by rw [heval]; norm_num)
  rw [heval] at hinst
  simp [List.getD, keyGe] at hinst

/-- C5 witness: on a series whose candidate scores are all valid the result
is non-increasing at each adjacent pair. -/
theorem C5_witness :
    keyGe ((find_similar_patterns
        [⟨0, 2⟩, ⟨1, 4⟩, ⟨2, 10⟩, ⟨86400002, 1⟩, ⟨86400003, 3⟩] 2 1 5).getD
        0 default).score
      ((find_similar_patterns
        [⟨0, 2⟩, ⟨1, 4⟩, ⟨2, 10⟩, ⟨86400002, 1⟩, ⟨86400003, 3⟩] 2 1 5).getD
        1 default).score = true := by
  have hevalS : similarities
      [⟨0, 2⟩, ⟨1, 4⟩, ⟨2, 10⟩, ⟨86400002, 1⟩, ⟨86400003, 3⟩] 2 1 =
      [⟨some ⟨2, 2, 2⟩, 0, 2⟩, ⟨some ⟨6, 2, 18⟩, 1, 86400002⟩] := by
    norm_num [similarities, closes, pastSlice, currentWindow, corrcoef,
      centered, mean, sdot, List.range_succ, List.filterMap_cons, List.getD]
  have hday1 : dayOf 2 = 0 := by decide
  have hday2 : dayOf 86400002 = 1 := by decide
  have hlen : (find_similar_patterns
      [⟨0, 2⟩, ⟨1, 4⟩, ⟨2, 10⟩, ⟨86400002, 1⟩, ⟨86400003, 3⟩] 2 1 5).length
      = 2 := by
    rw [find_similar_patterns, sortedSimilarities, hevalS]
    norm_num [sortDesc, ordIns, keyLt, ScoreVal.lt, selectLoop, hday1, hday2]
  exact C5_result_nonincreasing _ 2 1 5
    (by
      intro s hs
      rw [hevalS] at hs
      simp only [List.mem_cons, List.not_mem_nil, or_false] at hs
      rcases hs with rfl | rfl <;> simp)
    0 (by rw [hlen]; norm_num)

/-- C9: scorer sanity — comparing a non-constant window with itself gives
Pearson correlation exactly 1, and every defined correlation value lies in
the closed range from -1 to 1. -/
theorem C9_scorer_self_one_range :
    (∀ w : List ℚ, ∀ a ∈ w, ∀ b ∈ w, a ≠ b →
      ∃ v, corrcoef w w = some v ∧ ScoreVal.toReal v = 1) ∧
    (∀ x y : List ℚ, ∀ v, corrcoef x y = some v →
      -1 ≤ ScoreVal.toReal v ∧ ScoreVal.toReal v ≤ 1) := by
  constructor
  · intro w a ha b hb hne
    exact corrcoef_self_eq_one w (centered_var_ne_zero w a b ha hb hne)
  · intro x y v h
    exact corrcoef_range x y v h

/-- C9 witness: self-similarity and range at the concrete window `[0, 1]`. -/
theorem C9_witness :
    (∃ v, corrcoef [0, 1] [0, 1] = some v ∧ ScoreVal.toReal v = 1) ∧
    (-1 ≤ ScoreVal.toReal ⟨1/2, 1/2, 1/2⟩ ∧
      ScoreVal.toReal ⟨1/2, 1/2, 1/2⟩ ≤ 1) := by
  constructor
  · exact C9_scorer_self_one_range.1 [0, 1] 0 (by simp) 1 (by simp)
      (by norm_num)
  · exact C9_scorer_self_one_range.2 [0, 1] [0, 1] _
      (by norm_num [corrcoef, centered, mean, sdot])

